import Mathlib

/-!
Verification development for the GPTORIENTA chat repository.

The embedded program consists of:
* `src/app/components/chat.tsx` — the chat view: the `sendMessage` function
  (input guards, user-message append, streamed response consumption with a
  carry-over buffer, line splitting, `data: ` tag stripping, `[DONE]`
  sentinel, JSON event dispatch, delta accumulation, error handling);
* `src/app/api/assistants/threads/route.ts` — the thread bootstrap endpoint.

Byte streams are modelled as lists of already-decoded characters: the source
decodes with `TextDecoder(..., \x7b stream: true \x7d)`, which is transparent to
chunk boundaries, so the decoded text of a concatenation of byte chunks is the
concatenation of the decoded texts.  JavaScript strings are modelled by
`List Char` (the claims are about code-point content, not UTF-16 layout).
`JSON.parse` is modelled by `jsonParseC` below; JS semantics that the code
relies on (truthiness, optional chaining, property access throwing on `null`,
`for...of` iterability, string coercion on `+=`) are modelled explicitly.
One simplification: a JSON number is carried as its source lexeme and its
string coercion is that lexeme (the claims never exercise number formatting).
-/

/-- The result of `JSON.parse`: a JSON value.  Numbers keep their lexeme. -/
inductive Json where
  | null
  | bool (b : Bool)
  | num (lexeme : String)
  | str (s : String)
  | arr (elems : List Json)
  | obj (fields : List (String × Json))
deriving Repr

/-! ### Model of `JSON.parse` (a JS builtin used at chat.tsx:156) -/

/-- JSON whitespace accepted by `JSON.parse` between tokens. -/
def isJsonWsC (c : Char) : Bool :=
  c == ' ' || c == '\t' || c == '\n' || c == '\r'

def skipWsC (cs : List Char) : List Char := cs.dropWhile isJsonWsC

def hexVal (c : Char) : Option Nat :=
  if c.isDigit then some (c.toNat - '0'.toNat)
  else if 'a' ≤ c ∧ c ≤ 'f' then some (c.toNat - 'a'.toNat + 10)
  else if 'A' ≤ c ∧ c ≤ 'F' then some (c.toNat - 'A'.toNat + 10)
  else none

/-- One escape sequence after a backslash inside a JSON string literal. -/
def parseEscape : List Char → Option (Char × List Char)
  | '"' :: r => some ('"', r)
  | '\\' :: r => some ('\\', r)
  | '/' :: r => some ('/', r)
  | 'b' :: r => some ('\x08', r)
  | 'f' :: r => some ('\x0c', r)
  | 'n' :: r => some ('\n', r)
  | 'r' :: r => some ('\r', r)
  | 't' :: r => some ('\t', r)
  | 'u' :: a :: b :: c :: d :: r =>
    match hexVal a, hexVal b, hexVal c, hexVal d with
    | some ha, some hb, some hc, some hd =>
      some (Char.ofNat (((ha * 16 + hb) * 16 + hc) * 16 + hd), r)
    | _, _, _, _ => none
  | _ => none

/-- Body of a JSON string literal, after the opening quote.  Returns the
decoded characters and the rest of the input after the closing quote. -/
def parseStrBody : Nat → List Char → Option (List Char × List Char)
  | 0, _ => none
  | _ + 1, [] => none
  | _ + 1, '"' :: r => some ([], r)
  | f + 1, '\\' :: r =>
    match parseEscape r with
    | some (c, r') =>
      match parseStrBody f r' with
      | some (s, rest) => some (c :: s, rest)
      | none => none
    | none => none
  | f + 1, c :: r =>
    if c.toNat < 0x20 then none
    else
      match parseStrBody f r with
      | some (s, rest) => some (c :: s, rest)
      | none => none

/-- Digits of a JSON number, greedily. -/
def takeDigits (cs : List Char) : List Char × List Char :=
  (cs.takeWhile Char.isDigit, cs.dropWhile Char.isDigit)

/-- Fraction and exponent portions of a JSON number, given the lexeme so far.
A '.' or exponent marker not followed by a digit makes the whole parse fail. -/
def parseNumTail (lex : List Char) (cs : List Char) : Option (List Char × List Char) :=
  match cs with
  | '.' :: r =>
    match takeDigits r with
    | ([], _) => none
    | (ds, r') => parseExp (lex ++ '.' :: ds) r'
  | _ => parseExp lex cs
where
  parseExp (lex : List Char) (cs : List Char) : Option (List Char × List Char) :=
    match cs with
    | 'e' :: r => parseExpSign lex 'e' r
    | 'E' :: r => parseExpSign lex 'E' r
    | _ => some (lex, cs)
  parseExpSign (lex : List Char) (e : Char) (cs : List Char) :
      Option (List Char × List Char) :=
    let (sgn, cs1) :=
      match cs with
      | '+' :: r => (['+'], r)
      | '-' :: r => (['-'], r)
      | _ => (([] : List Char), cs)
    match takeDigits cs1 with
    | ([], _) => none
    | (ds, r) => some (lex ++ e :: (sgn ++ ds), r)

/-- A JSON number literal (sign, integer part, fraction, exponent). -/
def parseNumber (cs : List Char) : Option (List Char × List Char) :=
  let (neg, cs1) :=
    match cs with
    | '-' :: r => ((['-'] : List Char), r)
    | _ => (([] : List Char), cs)
  match cs1 with
  | '0' :: r => parseNumTail (neg ++ ['0']) r
  | c :: r =>
    if c.isDigit then
      match takeDigits r with
      | (ds, r') => parseNumTail (neg ++ c :: ds) r'
    else none
  | [] => none

mutual

/-- One JSON value, fuel-bounded recursive descent. -/
def parseVal : Nat → List Char → Option (Json × List Char)
  | 0, _ => none
  | f + 1, cs =>
    match skipWsC cs with
    | '"' :: r =>
      match parseStrBody (r.length + 1) r with
      | some (s, rest) => some (.str (String.mk s), rest)
      | none => none
    | '\x7b' :: r =>
      match skipWsC r with
      | '\x7d' :: rest => some (.obj [], rest)
      | r' =>
        match parseObjItems f r' with
        | some (fs, rest) => some (.obj fs, rest)
        | none => none
    | '[' :: r =>
      match skipWsC r with
      | ']' :: rest => some (.arr [], rest)
      | r' =>
        match parseArrItems f r' with
        | some (xs, rest) => some (.arr xs, rest)
        | none => none
    | 't' :: r =>
      if ['r', 'u', 'e'].isPrefixOf r then some (.bool true, r.drop 3) else none
    | 'f' :: r =>
      if ['a', 'l', 's', 'e'].isPrefixOf r then some (.bool false, r.drop 4) else none
    | 'n' :: r =>
      if ['u', 'l', 'l'].isPrefixOf r then some (.null, r.drop 3) else none
    | cs' =>
      match parseNumber cs' with
      | some (lex, rest) => some (.num (String.mk lex), rest)
      | none => none

/-- Comma-separated array items up to the closing bracket. -/
def parseArrItems : Nat → List Char → Option (List Json × List Char)
  | 0, _ => none
  | f + 1, cs =>
    match parseVal f cs with
    | none => none
    | some (v, rest) =>
      match skipWsC rest with
      | ',' :: r2 =>
        match parseArrItems f r2 with
        | some (vs, rest2) => some (v :: vs, rest2)
        | none => none
      | ']' :: r2 => some ([v], r2)
      | _ => none

/-- Comma-separated object members up to the closing brace. -/
def parseObjItems : Nat → List Char → Option (List (String × Json) × List Char)
  | 0, _ => none
  | f + 1, cs =>
    match skipWsC cs with
    | '"' :: r =>
      match parseStrBody (r.length + 1) r with
      | none => none
      | some (k, rest) =>
        match skipWsC rest with
        | ':' :: r2 =>
          match parseVal f r2 with
          | none => none
          | some (v, rest2) =>
            match skipWsC rest2 with
            | ',' :: r3 =>
              match parseObjItems f r3 with
              | some (fs, rest3) => some ((String.mk k, v) :: fs, rest3)
              | none => none
            | '\x7d' :: r3 => some ([(String.mk k, v)], r3)
            | _ => none
        | _ => none
    | _ => none

end

/-- Model of `JSON.parse(line)` at chat.tsx:156: a single JSON value with
optional surrounding whitespace; anything else throws (returns `none`). -/
def jsonParseC (cs : List Char) : Option Json :=
  match parseVal (2 * cs.length + 2) cs with
  | some (v, rest) => if (skipWsC rest).isEmpty then some v else none
  | none => none

/-! ### JS value semantics used by the event dispatch (chat.tsx:155-196) -/

/-- JS property lookup on a parsed JSON object keeps the LAST duplicate key,
matching `JSON.parse`. -/
def lookupLast (fs : List (String × Json)) (k : String) : Option Json :=
  match fs with
  | [] => none
  | (k', v) :: rest =>
    match lookupLast rest k with
    | some w => some w
    | none => if k' = k then some v else none

/-- Plain property access `j.k` on a non-null value: objects look the key up,
everything else (boxed primitives, arrays) yields `undefined` (`none`) for the
keys this program reads. -/
def getField (j : Json) (k : String) : Option Json :=
  match j with
  | .obj fs => lookupLast fs k
  | _ => none

/-- Optional chaining `v?.k`: `undefined` and `null` short-circuit to
`undefined`; otherwise a plain access. -/
def optChain (v : Option Json) (k : String) : Option Json :=
  match v with
  | none => none
  | some .null => none
  | some j => getField j k

/-- JS truthiness of a number from its JSON lexeme: zero iff every mantissa
digit is `0` (extreme-underflow corners of IEEE doubles are not modelled). -/
def numTruthy (lex : String) : Bool :=
  ((lex.toList.takeWhile (fun c => c != 'e' && c != 'E')).filter Char.isDigit).any
    (fun c => c != '0')

/-- JS truthiness of a JSON value. -/
def truthy : Json → Bool
  | .null => false
  | .bool b => b
  | .num lex => numTruthy lex
  | .str s => !s.isEmpty
  | .arr _ => true
  | .obj _ => true

def truthyOpt : Option Json → Bool
  | none => false
  | some j => truthy j

mutual

/-- JS string coercion `"" + v` (chat.tsx:165 `+=`).  Number lexemes are kept
verbatim (claims never exercise number formatting). -/
def jsToString : Json → String
  | .null => "null"
  | .bool b => if b then "true" else "false"
  | .num lex => lex
  | .str s => s
  | .arr xs => String.intercalate "," (jsToStringList xs)
  | .obj _ => "[object Object]"

/-- JS `Array.prototype.toString` joins with commas; `null` entries render empty. -/
def jsToStringList : List Json → List String
  | [] => []
  | .null :: rest => "" :: jsToStringList rest
  | v :: rest => jsToString v :: jsToStringList rest

end

/-- Model of `for (const part of contentParts)` (chat.tsx:161): arrays iterate their
elements, strings iterate their characters as one-character strings, anything
else is not iterable and throws a TypeError. -/
def jsIterate : Json → Option (List Json)
  | .arr xs => some xs
  | .str s => some (s.toList.map (fun c => Json.str (String.mk [c])))
  | _ => none

/-! ### Data model (chat.tsx:16-19) -/

/-- The role field of `MessageType`: `"user" | "assistant"`. -/
inductive Role where
  | user
  | assistant
deriving DecidableEq, Repr

/-- One entry of the message log (`MessageType`). -/
structure Message where
  role : Role
  text : String
deriving DecidableEq, Repr

/-- The chat state touched by the stream loop: the `messages` React state, the
`inputDisabled` React state, and the `assistantMessageRef` accumulator. -/
structure ChatState where
  messages : List Message
  inputDisabled : Bool
  assistantMessageRef : String
deriving DecidableEq, Repr

/-! ### Delta handling (chat.tsx:158-185) -/

/-- Model of `part?.text?.value || ""` followed by the string coercion of `+=`. -/
def partText (part : Json) : String :=
  match optChain (optChain (some part) "text") "value" with
  | some v => if truthy v then jsToString v else ""
  | none => ""

/-- The `setMessages` updater (chat.tsx:168-183): if there is a last message
and its role is assistant (`lastMessage && lastMessage.role === "assistant"`),
replace it with the accumulated text, otherwise append a new assistant
message. -/
def updateMessages (msgs : List Message) (acc : String) : List Message :=
  if msgs.getLast?.map Message.role = some Role.assistant then
    msgs.dropLast ++ [⟨.assistant, acc⟩]
  else msgs ++ [⟨.assistant, acc⟩]

/-- One iteration of the part loop (chat.tsx:161-184): extend the accumulator
and splice the log. -/
def deltaStep (st : ChatState) (part : Json) : ChatState :=
  let acc := st.assistantMessageRef ++ partText part
  { messages := updateMessages st.messages acc
    inputDisabled := st.inputDisabled
    assistantMessageRef := acc }

/-- The whole part loop of one delta event. -/
def applyDelta (st : ChatState) (parts : List Json) : ChatState :=
  parts.foldl deltaStep st

/-! ### Event dispatch on a parsed line (chat.tsx:155-196) -/

/-- What the `try` block does with a parsed value.  `thrown` marks the throws
the code can hit inside the `try` after a successful parse: `parsed.event`
on `null`, and `for...of` over a truthy non-iterable `content`; both happen
before any state update and land in the `catch`. -/
inductive ParsedAction where
  | deltaParts (parts : List Json)
  | completedEv
  | noOp
  | thrown
deriving Repr

/-- Is `v` exactly the JS string `s` (strict equality `===`)? -/
def evIs (v : Option Json) (s : String) : Bool :=
  match v with
  | some (.str t) => t == s
  | _ => false

/-- Shape analysis of chat.tsx:158-189 on the parsed value. -/
def classifyParsed (parsed : Json) : ParsedAction :=
  match parsed with
  | .null => .thrown          -- `parsed.event` throws a TypeError on null
  | _ =>
    let ev := getField parsed "event"
    let content := optChain (optChain (getField parsed "data") "delta") "content"
    if evIs ev "thread.message.delta" && truthyOpt content then
      match content with
      | some c =>
        match jsIterate c with
        | some parts => .deltaParts parts
        | none => .thrown   -- `for...of` over a non-iterable throws
      | none => .noOp       -- unreachable: truthy content is present
    else if evIs ev "thread.message.completed" then .completedEv
    else .noOp

/-! ### Line handling (chat.tsx:139-197) -/

/-- JS `String.prototype.trim` whitespace (the characters that can occur in
this protocol; NBSP and BOM included for good measure). -/
def isJsWs (c : Char) : Bool :=
  c == ' ' || c == '\t' || c == '\n' || c == '\r' || c == '\x0b' ||
  c == '\x0c' || c == '\xa0' || c == '﻿'

def trimLeftC (l : List Char) : List Char := l.dropWhile isJsWs

def trimRightC (l : List Char) : List Char := (l.reverse.dropWhile isJsWs).reverse

/-- Model of `line.trim()` (chat.tsx:141). -/
def jsTrimC (l : List Char) : List Char := trimLeftC (trimRightC l)

/-- The tag `"data: "` as characters. -/
def dataTag : List Char := 'd' :: 'a' :: 't' :: 'a' :: ':' :: ' ' :: []

/-- Model of `line.startsWith("data: ") ? line.slice(6) : line` (chat.tsx:146-148). -/
def stripTag (l : List Char) : List Char :=
  if dataTag.isPrefixOf l then l.drop 6 else l

/-- The fate of one complete line (chat.tsx:139-196): skipped, the `[DONE]`
sentinel, an event of some kind, or a `catch` (`malformed`) carrying the
trimmed and tag-stripped text that is written into the buffer. -/
inductive LineResult where
  | skip
  | done
  | eventDelta (parts : List Json)
  | eventCompleted
  | eventOther
  | malformed (held : List Char)
deriving Repr

/-- The sentinel `"[DONE]"` as characters. -/
def doneChars : List Char := '[' :: 'D' :: 'O' :: 'N' :: 'E' :: ']' :: []

/-- Classify one line exactly as the body of the `for` loop does: trim, skip
empty lines, strip the `data: ` tag, check the sentinel, then parse. -/
def classifyLineC (l : List Char) : LineResult :=
  if (jsTrimC l).isEmpty then .skip
  else if stripTag (jsTrimC l) = doneChars then .done
  else
    match jsonParseC (stripTag (jsTrimC l)) with
    | none => .malformed (stripTag (jsTrimC l))
    | some parsed =>
      match classifyParsed parsed with
      | .thrown => .malformed (stripTag (jsTrimC l))
      | .deltaParts parts => .eventDelta parts
      | .completedEv => .eventCompleted
      | .noOp => .eventOther

/-- Process one line: new chat state, new buffer, and whether the loop
`break`s.  The `catch` (chat.tsx:191-196) REPLACES the buffer with the line. -/
def processLineC (st : ChatState) (buf l : List Char) :
    ChatState × List Char × Bool :=
  match classifyLineC l with
  | .skip => (st, buf, false)
  | .done => ({ st with inputDisabled := false }, buf, true)
  | .eventDelta parts => (applyDelta st parts, buf, false)
  | .eventCompleted => ({ st with inputDisabled := false }, buf, false)
  | .eventOther => (st, buf, false)
  | .malformed held => (st, held, false)

/-- The `for (let line of lines)` loop over one batch, threading the buffer
and stopping at a `[DONE]` `break`. -/
def processLinesC : ChatState → List Char → List (List Char) → ChatState × List Char
  | st, buf, [] => (st, buf)
  | st, buf, l :: ls =>
    match processLineC st buf l with
    | (st', buf', true) => (st', buf')
    | (st', buf', false) => processLinesC st' buf' ls

/-! ### Buffer splitting per read (chat.tsx:127-137) -/

/-- JS `buffer.split(/\r?\n/)`: `\r\n` or bare `\n` separate; a lone `\r`
does not.  Always returns at least one segment. -/
def rawSplit : List Char → List (List Char)
  | [] => [[]]
  | '\r' :: '\n' :: rest => [] :: rawSplit rest
  | '\n' :: rest => [] :: rawSplit rest
  | c :: rest =>
    match rawSplit rest with
    | [] => [[c]]
    | l :: ls => (c :: l) :: ls

/-- Model of `buffer.endsWith("\n")` (chat.tsx:133). -/
def endsWithNl (s : List Char) : Prop := s.getLast? = some '\n'

instance (s : List Char) : Decidable (endsWithNl s) := by
  unfold endsWithNl; infer_instance

/-- One `reader.read()` iteration (chat.tsx:127-197): append the chunk,
split into lines, pop an unterminated final segment back into the buffer,
then run the line loop. -/
def processChunkC (st : ChatState) (buf chunk : List Char) :
    ChatState × List Char :=
  let buffer := buf ++ chunk
  let lines := rawSplit buffer
  if endsWithNl buffer then processLinesC st [] lines
  else processLinesC st (lines.getLastD []) lines.dropLast

/-- The whole `while (true)` read loop over the decoded chunks of the body. -/
def runChunksC (st : ChatState) (chunks : List (List Char)) :
    ChatState × List Char :=
  chunks.foldl (fun p c => processChunkC p.1 p.2 c) (st, [])

/-! ### sendMessage (chat.tsx:83-204) -/

/-- The component state a submission touches. -/
structure UIState where
  userInput : String
  messages : List Message
  inputDisabled : Bool
  threadId : Option String
  assistantMessageRef : String
deriving DecidableEq, Repr

/-- How the network side of one submission goes, as observed by the code:
no `response.body`; a fetch/read that throws after some successful reads; or
a stream that delivers its decoded chunks and reports done. -/
inductive StreamOutcome where
  | noBody
  | fetchThrows
  | chunks (cs : List String)
  | errorAfter (cs : List String)
deriving Repr

/-- Model of `!threadId` (chat.tsx:85): null/undefined and the empty string are falsy. -/
def threadIdFalsy : Option String → Bool
  | none => true
  | some t => t.isEmpty

def chatOf (ui : UIState) : ChatState :=
  ⟨ui.messages, ui.inputDisabled, ui.assistantMessageRef⟩

def withChat (ui : UIState) (st : ChatState) : UIState :=
  { ui with
    messages := st.messages
    inputDisabled := st.inputDisabled
    assistantMessageRef := st.assistantMessageRef }

/-- chat.tsx:90-95: optionally append the user message, clear the input,
disable submission.  This is the state in force when the stream is consumed. -/
def preStream (ui : UIState) (text : String) (displayUserMessage : Bool) : UIState :=
  let ui :=
    if displayUserMessage then
      { ui with messages := ui.messages ++ [⟨.user, text⟩] }
    else ui
  { ui with userInput := "", inputDisabled := true }

/-- chat.tsx:97-203: consume the response according to the outcome.  Every
branch leaves `inputDisabled` false on return: the missing-body early return
sets it (line 113), and line 203 runs after both normal completion and the
`catch`.  The accumulator reset (line 119) happens only once a reader exists. -/
def consumeStream (ui : UIState) (outcome : StreamOutcome) : UIState :=
  match outcome with
  | .noBody => { ui with inputDisabled := false }
  | .fetchThrows => { ui with inputDisabled := false }
  | .chunks cs =>
    let st0 : ChatState := { chatOf ui with assistantMessageRef := "" }
    let r := runChunksC st0 (cs.map String.toList)
    { withChat ui r.1 with inputDisabled := false }
  | .errorAfter cs =>
    let st0 : ChatState := { chatOf ui with assistantMessageRef := "" }
    let r := runChunksC st0 (cs.map String.toList)
    { withChat ui r.1 with inputDisabled := false }

/-- Model of `sendMessage(text, displayUserMessage)` (chat.tsx:83-204).  The boolean
result records whether the request (the fetch at line 98) was issued. -/
def sendMessage (ui : UIState) (text : String) (displayUserMessage : Bool)
    (outcome : StreamOutcome) : UIState × Bool :=
  if (jsTrimC text.toList).isEmpty then (ui, false)
  else if threadIdFalsy ui.threadId then (ui, false)
  else (consumeStream (preStream ui text displayUserMessage) outcome, true)

/-- Model of `appendMessage` (chat.tsx:211-213). -/
def appendMessage (msgs : List Message) (role : Role) (text : String) :
    List Message :=
  msgs ++ [⟨role, text⟩]

/-! ### Thread bootstrap endpoint (route.ts) -/

/-- An HTTP response as the route builds it: status plus JSON body. -/
structure ApiResponse where
  status : Nat
  body : Json
deriving Repr

/-- Handler `POST` of `src/app/api/assistants/threads/route.ts`: the external
`openai.beta.threads.create()` either returns a thread id or throws. -/
def threadsPOST : Except Unit String → ApiResponse
  | .ok threadId => ⟨200, .obj [("threadId", .str threadId)]⟩
  | .error _ => ⟨500, .obj [("error", .str "Error interno del servidor.")]⟩

/-! ### Closed form of the delta part loop -/

/-- Concatenation, in order, of the texts contributed by a list of parts. -/
def catParts : List Json → String
  | [] => ""
  | p :: ps => partText p ++ catParts ps

theorem catParts_append (xs ys : List Json) :
    catParts (xs ++ ys) = catParts xs ++ catParts ys := by
  induction xs with
  | nil => simp [catParts]
  | cons p ps ih => simp [catParts, ih, String.append_assoc]

theorem updateMessages_getLast (msgs : List Message) (t : String) :
    (updateMessages msgs t).getLast? = some ⟨.assistant, t⟩ := by
  unfold updateMessages
  split <;> simp

theorem updateMessages_of_assistant {msgs : List Message} {t : String}
    (h : msgs.getLast? = some ⟨.assistant, t⟩) (t' : String) :
    updateMessages msgs t' = msgs.dropLast ++ [⟨.assistant, t'⟩] := by
  unfold updateMessages
  rw [if_pos (by rw [h]; rfl)]

theorem updateMessages_twice (msgs : List Message) (t₁ t₂ : String) :
    updateMessages (updateMessages msgs t₁) t₂ = updateMessages msgs t₂ := by
  rw [updateMessages_of_assistant (updateMessages_getLast msgs t₁) t₂]
  unfold updateMessages
  split <;> simp [List.dropLast_concat]

theorem applyDelta_nil (st : ChatState) : applyDelta st [] = st := rfl

theorem applyDelta_of_assistant :
    ∀ (ps : List Json) (st : ChatState),
      st.messages.getLast? = some ⟨.assistant, st.assistantMessageRef⟩ →
      applyDelta st ps =
        ⟨st.messages.dropLast ++
            [⟨.assistant, st.assistantMessageRef ++ catParts ps⟩],
          st.inputDisabled, st.assistantMessageRef ++ catParts ps⟩ := by
  intro ps
  induction ps with
  | nil =>
    intro st h
    obtain ⟨msgs, flag, acc⟩ := st
    simp only at h
    rcases msgs.eq_nil_or_concat with rfl | ⟨ys, b, rfl⟩
    · simp at h
    · simp only [List.concat_eq_append, List.getLast?_concat,
        Option.some.injEq] at h
      subst h
      simp [applyDelta, catParts, List.dropLast_concat]
  | cons p ps ih =>
    intro st h
    obtain ⟨msgs, flag, acc⟩ := st
    simp only at h
    show applyDelta (deltaStep ⟨msgs, flag, acc⟩ p) ps = _
    have hstep : deltaStep ⟨msgs, flag, acc⟩ p =
        ⟨msgs.dropLast ++ [⟨.assistant, acc ++ partText p⟩], flag,
          acc ++ partText p⟩ := by
      show (⟨updateMessages msgs (acc ++ partText p), flag,
        acc ++ partText p⟩ : ChatState) = _
      rw [updateMessages_of_assistant h]
    rw [hstep, ih _ (by simp)]
    simp [List.dropLast_concat, catParts, String.append_assoc]

theorem applyDelta_cons (p : Json) (ps : List Json) (st : ChatState) :
    applyDelta st (p :: ps) =
      ⟨updateMessages st.messages (st.assistantMessageRef ++ catParts (p :: ps)),
        st.inputDisabled, st.assistantMessageRef ++ catParts (p :: ps)⟩ := by
  obtain ⟨msgs, flag, acc⟩ := st
  show applyDelta (deltaStep ⟨msgs, flag, acc⟩ p) ps = _
  have hstep : deltaStep ⟨msgs, flag, acc⟩ p =
      ⟨updateMessages msgs (acc ++ partText p), flag, acc ++ partText p⟩ := rfl
  rw [hstep, applyDelta_of_assistant ps _ (by simp [updateMessages_getLast])]
  have hmsg : (updateMessages msgs (acc ++ partText p)).dropLast ++
      [(⟨Role.assistant, acc ++ partText p ++ catParts ps⟩ : Message)] =
      updateMessages msgs (acc ++ partText p ++ catParts ps) :=
    (updateMessages_of_assistant
      (updateMessages_getLast msgs (acc ++ partText p)) _).symm.trans
      (updateMessages_twice msgs _ _)
  simp only [catParts]
  rw [← String.append_assoc, hmsg]

/-! ### C4, C6, C7, C8: submission guards, re-enabling, bootstrap endpoint -/

theorem ne_true_of_false {b : Bool} (h : b = false) : ¬ b = true := by
  simp [h]

/-- C4: for empty/whitespace-only input, or when no (truthy) thread identifier
is available, `sendMessage` is a no-op: the component state is unchanged and
no request is issued, whatever the network would have answered. -/
theorem C4_submit_noop (ui : UIState) (text : String) (disp : Bool)
    (outcome : StreamOutcome)
    (h : (jsTrimC text.toList).isEmpty = true ∨
      threadIdFalsy ui.threadId = true) :
    sendMessage ui text disp outcome = (ui, false) := by
  unfold sendMessage
  rcases h with h | h
  · rw [if_pos h]
  · by_cases he : (jsTrimC text.toList).isEmpty = true
    · rw [if_pos he]
    · rw [if_neg he, if_pos h]

theorem C4_witness :
    ((jsTrimC "   ".toList).isEmpty = true ∨
        threadIdFalsy (some "t") = true) ∧
      sendMessage ⟨"x", [], false, some "t", ""⟩ "   " true .noBody =
        (⟨"x", [], false, some "t", ""⟩, false) ∧
      ((jsTrimC "hey".toList).isEmpty = true ∨ threadIdFalsy none = true) ∧
      sendMessage ⟨"x", [], false, none, ""⟩ "hey" true .noBody =
        (⟨"x", [], false, none, ""⟩, false) :=
  ⟨Or.inl (by decide),
    C4_submit_noop _ _ _ _ (Or.inl (by decide)),
    Or.inr (by decide),
    C4_submit_noop _ _ _ _ (Or.inr (by decide))⟩

/-- C6: once the stream ends (done), the response has no body, or the fetch or
a read throws, `inputDisabled` is false when `sendMessage` returns — for every
outcome, even without a `[DONE]` frame in the stream. -/
theorem C6_reenabled (ui : UIState) (text : String) (disp : Bool)
    (outcome : StreamOutcome)
    (h1 : (jsTrimC text.toList).isEmpty = false)
    (h2 : threadIdFalsy ui.threadId = false) :
    (sendMessage ui text disp outcome).1.inputDisabled = false := by
  unfold sendMessage
  rw [if_neg (ne_true_of_false h1), if_neg (ne_true_of_false h2)]
  cases outcome <;> rfl

theorem C6_witness :
    (jsTrimC "hi".toList).isEmpty = false ∧
      threadIdFalsy (some "t") = false ∧
      (sendMessage ⟨"hi", [], false, some "t", ""⟩ "hi" true
            (.chunks ["x\n"])).1.inputDisabled = false :=
  ⟨by decide, by decide, C6_reenabled _ _ _ _ (by decide) (by decide)⟩

/-- C7: the bootstrap endpoint returns 200 with the created thread's id under
`threadId` when the external call succeeds, and 500 with an `error` field when
it throws. -/
theorem C7_bootstrap (tid : String) :
    threadsPOST (.ok tid) = ⟨200, .obj [("threadId", .str tid)]⟩ ∧
      threadsPOST (.error ()) =
        ⟨500, .obj [("error", .str "Error interno del servidor.")]⟩ :=
  ⟨rfl, rfl⟩

/-- C8: with non-empty input and a valid thread id, `sendMessage` first
appends exactly one user message (none when display is suppressed), clears the
input, and disables submission — and only then consumes the stream from that
state. -/
theorem C8_submit_effect (ui : UIState) (text : String) (disp : Bool)
    (outcome : StreamOutcome)
    (h1 : (jsTrimC text.toList).isEmpty = false)
    (h2 : threadIdFalsy ui.threadId = false) :
    sendMessage ui text disp outcome =
        (consumeStream (preStream ui text disp) outcome, true) ∧
      preStream ui text disp =
        ⟨"", ui.messages ++ (if disp then [⟨.user, text⟩] else []),
          true, ui.threadId, ui.assistantMessageRef⟩ := by
  constructor
  · unfold sendMessage
    rw [if_neg (ne_true_of_false h1), if_neg (ne_true_of_false h2)]
  · unfold preStream
    cases disp <;> simp

theorem C8_witness :
    (jsTrimC "Hola".toList).isEmpty = false ∧
      threadIdFalsy (some "t") = false ∧
      (sendMessage ⟨"Hola", [⟨.user, "old"⟩], false, some "t", "a"⟩ "Hola" true
            .noBody =
          (consumeStream
            (preStream ⟨"Hola", [⟨.user, "old"⟩], false, some "t", "a"⟩ "Hola"
              true) .noBody, true) ∧
        preStream ⟨"Hola", [⟨.user, "old"⟩], false, some "t", "a"⟩ "Hola" true =
          ⟨"", [⟨.user, "old"⟩] ++ (if true then [⟨.user, "Hola"⟩] else []),
            true, some "t", "a"⟩) :=
  ⟨by decide, by decide, C8_submit_effect _ _ _ _ (by decide) (by decide)⟩

/-! ### C2: the message list is append-only except for the trailing
in-progress assistant message -/

/-- The operations of one session that touch the message list: a submission's
`appendMessage("user", text)` (chat.tsx:91) together with its
`setInputDisabled(true)`, and the processing of one complete stream line
(delta accumulation, completion, sentinel, parse failure — chat.tsx:139-196;
the buffer does not touch the log, so it is irrelevant here). -/
inductive ChatOp where
  | submit (text : String)
  | line (l : List Char)

def chatStep (st : ChatState) : ChatOp → ChatState
  | .submit text =>
    { st with
      messages := appendMessage st.messages Role.user text
      inputDisabled := true }
  | .line l => (processLineC st [] l).1

/-- One step changes the log only by appending one element or by replacing
the last element when that element is an assistant message (and the
replacement is again an assistant message, so the in-progress assistant
message stays last). -/
def appendOnlyStep (a b : List Message) : Prop :=
  b = a ∨ (∃ m, b = a ++ [m]) ∨
    (∃ t u, a.getLast? = some ⟨.assistant, t⟩ ∧
      b = a.dropLast ++ [⟨.assistant, u⟩])

theorem updateMessages_appendOnly (msgs : List Message) (t : String) :
    appendOnlyStep msgs (updateMessages msgs t) := by
  unfold updateMessages
  split
  case isTrue hcond =>
    rcases hm : msgs.getLast? with _ | m
    · rw [hm] at hcond; simp at hcond
    · obtain ⟨r, x⟩ := m
      rw [hm] at hcond
      simp at hcond
      subst hcond
      exact Or.inr (Or.inr ⟨x, t, hm, rfl⟩)
  case isFalse => exact Or.inr (Or.inl ⟨_, rfl⟩)

theorem chatStep_appendOnly (st : ChatState) (op : ChatOp) :
    appendOnlyStep st.messages (chatStep st op).messages := by
  cases op with
  | submit text => exact Or.inr (Or.inl ⟨⟨.user, text⟩, rfl⟩)
  | line l =>
    show appendOnlyStep st.messages (processLineC st [] l).1.messages
    unfold processLineC
    cases hc : classifyLineC l with
    | eventDelta parts =>
      cases parts with
      | nil => exact Or.inl rfl
      | cons p ps =>
        show appendOnlyStep st.messages (applyDelta st (p :: ps)).messages
        rw [applyDelta_cons]
        exact updateMessages_appendOnly _ _
    | skip => exact Or.inl rfl
    | done => exact Or.inl rfl
    | eventCompleted => exact Or.inl rfl
    | eventOther => exact Or.inl rfl
    | malformed held => exact Or.inl rfl

/-- C2: along every sequence of operations, consecutive message logs are
related by `appendOnlyStep`: no earlier element is ever modified or removed,
at most one element is appended per operation, and only a trailing assistant
message is ever replaced (by an assistant message), so the single in-progress
assistant message is always last while it accumulates. -/
theorem C2_append_only (ops : List ChatOp) (st0 : ChatState) :
    List.Chain' appendOnlyStep
      ((ops.scanl chatStep st0).map ChatState.messages) := by
  induction ops generalizing st0 with
  | nil =>
    rw [List.scanl_nil]
    simp only [List.map_cons, List.map_nil]
    exact List.chain'_singleton _
  | cons op ops ih =>
    rw [List.scanl_cons]
    simp only [List.singleton_append, List.map_cons]
    rw [List.chain'_cons']
    refine ⟨?_, ih _⟩
    intro y hy
    cases ops with
    | nil =>
      simp only [List.scanl_nil, List.map_cons, List.map_nil, List.head?_cons,
        Option.mem_def, Option.some.injEq] at hy
      rw [← hy]
      exact chatStep_appendOnly st0 op
    | cons op' ops' =>
      rw [List.scanl_cons] at hy
      simp only [List.singleton_append, List.map_cons, List.head?_cons,
        Option.mem_def, Option.some.injEq] at hy
      rw [← hy]
      exact chatStep_appendOnly st0 op

/-! ### C3: delta fragments concatenate into the trailing assistant message -/

theorem foldDeltas_all_empty :
    ∀ (deltas : List (List Json)) (st : ChatState), deltas.flatten = [] →
      deltas.foldl applyDelta st = st := by
  intro deltas
  induction deltas with
  | nil => intro st _; rfl
  | cons d ds ih =>
    intro st h
    rw [List.flatten_cons, List.append_eq_nil] at h
    obtain ⟨rfl, hds⟩ := h
    rw [List.foldl_cons]
    exact ih _ hds

theorem foldDeltas_ne :
    ∀ (deltas : List (List Json)) (st : ChatState), deltas.flatten ≠ [] →
      deltas.foldl applyDelta st =
        ⟨updateMessages st.messages
            (st.assistantMessageRef ++ catParts deltas.flatten),
          st.inputDisabled,
          st.assistantMessageRef ++ catParts deltas.flatten⟩ := by
  intro deltas
  induction deltas with
  | nil => intro st h; simp at h
  | cons d ds ih =>
    intro st h
    rw [List.foldl_cons]
    cases d with
    | nil =>
      rw [List.flatten_cons] at h ⊢
      simp only [List.nil_append] at h ⊢
      exact ih st h
    | cons p ps =>
      by_cases hds : ds.flatten = []
      · rw [foldDeltas_all_empty ds _ hds, applyDelta_cons]
        rw [List.flatten_cons, hds, List.append_nil]
      · rw [applyDelta_cons, ih _ hds]
        simp only
        rw [updateMessages_twice, List.flatten_cons, catParts_append,
          ← String.append_assoc]

/-- The `data: `-prefixed content-delta line carrying `"Hel"` from the spec's
example. -/
def exampleHelLine : String :=
  "data: \x7b\"event\":\"thread.message.delta\",\"data\":\x7b\"delta\":\x7b\"content\":[\x7b\"text\":\x7b\"value\":\"Hel\"\x7d\x7d]\x7d\x7d\x7d"

/-- The `data: `-prefixed content-delta line carrying `"lo"` from the spec's
example. -/
def exampleLoLine : String :=
  "data: \x7b\"event\":\"thread.message.delta\",\"data\":\x7b\"delta\":\x7b\"content\":[\x7b\"text\":\x7b\"value\":\"lo\"\x7d\x7d]\x7d\x7d\x7d"

/-- C3: (i) processing any sequence of content-delta events ends with the
trailing assistant message's text equal to the concatenation, in arrival
order, of the texts of all content parts (starting from the reset
accumulator); (ii) the spec's example: `"Hel"` then `"lo"` then `[DONE]`
yields log tail `⟨assistant, "Hello"⟩` with input re-enabled. -/
theorem C3_delta_accumulation :
    (∀ (st : ChatState) (deltas : List (List Json)),
        st.assistantMessageRef = "" → deltas.flatten ≠ [] →
        (deltas.foldl applyDelta st).messages.getLast? =
          some ⟨.assistant, catParts deltas.flatten⟩) ∧
      sendMessage ⟨"Hola", [], false, some "t", ""⟩ "Hola" true
          (.chunks [exampleHelLine ++ "\n",
            exampleLoLine ++ "\ndata: [DONE]\n"]) =
        (⟨"", [⟨.user, "Hola"⟩, ⟨.assistant, "Hello"⟩], false, some "t",
          "Hello"⟩, true) := by
  constructor
  · intro st deltas h1 h2
    rw [foldDeltas_ne deltas st h2]
    simp only [updateMessages_getLast, h1, String.empty_append]
  · decide

theorem C3_witness :
    ((⟨[], true, ""⟩ : ChatState).assistantMessageRef = "" ∧
        ([[Json.obj [("text", Json.obj [("value", Json.str "ab")])]]] :
            List (List Json)).flatten ≠ []) ∧
      (([[Json.obj [("text", Json.obj [("value", Json.str "ab")])]]] :
            List (List Json)).foldl applyDelta ⟨[], true, ""⟩).messages.getLast? =
        some ⟨.assistant,
          catParts ([[Json.obj [("text", Json.obj [("value", Json.str "ab")])]]] :
            List (List Json)).flatten⟩ :=
  ⟨⟨rfl, by simp⟩,
    C3_delta_accumulation.1 ⟨[], true, ""⟩ _ rfl (by simp)⟩

/-! ### C5: a `[DONE]` line re-enables input and ends its batch -/

def isDoneLineB (l : List Char) : Bool :=
  match classifyLineC l with
  | .done => true
  | _ => false

theorem done_of_isDoneLineB {l : List Char} (h : isDoneLineB l = true) :
    classifyLineC l = .done := by
  unfold isDoneLineB at h
  cases hc : classifyLineC l <;> simp_all

theorem processLineC_stop {st : ChatState} {buf l : List Char}
    (h : (processLineC st buf l).2.2 = true) :
    (processLineC st buf l).1.inputDisabled = false := by
  unfold processLineC at h ⊢
  cases hc : classifyLineC l <;> simp_all

/-- C5: if some line of a batch is (after trimming and optional tag
stripping) the `[DONE]` sentinel, then — whatever the earlier lines of the
batch did, parse errors included — the batch result ignores everything after
the sentinel and ends with `inputDisabled` false. -/
theorem C5_done_breaks (st : ChatState) (buf : List Char)
    (pre post : List (List Char)) (l : List Char)
    (h : isDoneLineB l = true) :
    processLinesC st buf (pre ++ l :: post) =
        processLinesC st buf (pre ++ [l]) ∧
      (processLinesC st buf (pre ++ l :: post)).1.inputDisabled = false := by
  induction pre generalizing st buf with
  | nil =>
    have hl : processLineC st buf l = ({ st with inputDisabled := false }, buf, true) := by
      unfold processLineC
      rw [done_of_isDoneLineB h]
    simp only [List.nil_append]
    unfold processLinesC
    rw [hl]
    exact ⟨rfl, rfl⟩
  | cons p pre ih =>
    simp only [List.cons_append]
    unfold processLinesC
    rcases hp : processLineC st buf p with ⟨st', buf', stop⟩
    cases stop with
    | true =>
      refine ⟨rfl, ?_⟩
      have hstop : (processLineC st buf p).1.inputDisabled = false :=
        processLineC_stop (by rw [hp])
      rw [hp] at hstop
      exact hstop
    | false => exact ih st' buf'

theorem C5_witness :
    isDoneLineB "data: [DONE]".toList = true ∧
      (processLinesC ⟨[], true, ""⟩ []
            (["notjson".toList] ++ "data: [DONE]".toList ::
              ["\x7b\"event\":\"thread.message.completed\"\x7d".toList]) =
          processLinesC ⟨[], true, ""⟩ []
            (["notjson".toList] ++ ["data: [DONE]".toList]) ∧
        (processLinesC ⟨[], true, ""⟩ []
              (["notjson".toList] ++ "data: [DONE]".toList ::
                ["\x7b\"event\":\"thread.message.completed\"\x7d".toList])).1.inputDisabled =
          false) :=
  ⟨by decide, C5_done_breaks _ _ _ _ _ (by decide)⟩

/-! ### C9: a line that fails to parse replaces the carry-over buffer -/

/-- What the `catch` stores: the line after trim and tag stripping. -/
def heldOf (l : List Char) : List Char := stripTag (jsTrimC l)

def isMalformedB (l : List Char) : Bool :=
  match classifyLineC l with
  | .malformed _ => true
  | _ => false

theorem malformed_held {l held : List Char}
    (hc : classifyLineC l = .malformed held) : held = heldOf l := by
  unfold classifyLineC at hc
  unfold heldOf
  split at hc
  · cases hc
  · split at hc
    · cases hc
    · split at hc
      · cases hc; rfl
      · split at hc <;> cases hc
        rfl

theorem malformed_of_isMalformedB {l : List Char} (h : isMalformedB l = true) :
    classifyLineC l = .malformed (heldOf l) := by
  unfold isMalformedB at h
  cases hc : classifyLineC l <;> simp_all
  exact malformed_held hc

/-- C9: a complete line that reaches the parse and fails (or whose event
handling throws inside the `try`) leaves the chat state — message log and
input-disabled flag — unchanged, does not stop the batch, and REPLACES the
carry-over buffer with the trimmed, tag-stripped line, whatever the buffer
held before. -/
theorem C9_malformed_hold (st : ChatState) (buf l : List Char)
    (h : isMalformedB l = true) :
    processLineC st buf l = (st, heldOf l, false) := by
  unfold processLineC
  rw [malformed_of_isMalformedB h]

theorem C9_witness :
    isMalformedB "garbage".toList = true ∧
      processLineC ⟨[], true, ""⟩ "old".toList "garbage".toList =
        (⟨[], true, ""⟩, heldOf "garbage".toList, false) :=
  ⟨by decide, C9_malformed_hold _ _ _ (by decide)⟩

/-! ### C10: totality of event processing over malformed shapes -/

/-- The `content` chain the guard at chat.tsx:158 evaluates, read off a raw
line. -/
def contentOfLine (l : List Char) : Option Json :=
  match jsonParseC (heldOf l) with
  | some j => optChain (optChain (getField j "data") "delta") "content"
  | none => none

def isArrB : Option Json → Bool
  | some (.arr _) => true
  | _ => false

/-- A delta line whose `content` is the STRING `"ab"`, not an array. -/
def strContentLine : String :=
  "\x7b\"event\":\"thread.message.delta\",\"data\":\x7b\"delta\":\x7b\"content\":\"ab\"\x7d\x7d\x7d"

/-- C10 counterexample: this line parses as JSON and its event is NOT a
content delta with a content ARRAY (content is the string `"ab"`), yet
processing it CHANGES the message log: JS `for...of` iterates the string's
characters, and each character appends/updates an (empty-text) assistant
message.  So "an event other than a content delta with a content array
leaves the message log unchanged" is false on the code. -/
theorem C10_counterexample :
    (jsonParseC (heldOf strContentLine.toList)).isSome = true ∧
      isArrB (contentOfLine strContentLine.toList) = false ∧
      (processLineC ⟨[], true, ""⟩ [] strContentLine.toList).1.messages =
        [⟨.assistant, ""⟩] ∧
      (processLineC ⟨[], true, ""⟩ [] strContentLine.toList).1.messages ≠
        ([] : List Message) := by
  refine ⟨by decide, by decide, by decide, ?_⟩
  decide

/-- Is the parsed value a delta event with truthy content (the guard at
chat.tsx:158), evaluated without throwing? -/
def isDeltaTruthyB (j : Json) : Bool :=
  match j with
  | .null => false
  | _ =>
    evIs (getField j "event") "thread.message.delta" &&
      truthyOpt (optChain (optChain (getField j "data") "delta") "content")

theorem classifyParsed_not_delta {j : Json} (h : isDeltaTruthyB j = false)
    {ps : List Json} : classifyParsed j ≠ .deltaParts ps := by
  unfold isDeltaTruthyB at h
  unfold classifyParsed
  cases j <;> simp only at h ⊢ <;> try (rw [if_neg (ne_true_of_false h)]; split <;> simp)
  simp

/-- When a line reaches `JSON.parse` and parses, its classification is fully
determined by `classifyParsed` of the parsed value. -/
theorem classify_of_parse {l : List Char} {j : Json}
    (h1 : jsonParseC (heldOf l) = some j) :
    classifyLineC l =
      (match classifyParsed j with
        | .thrown => .malformed (heldOf l)
        | .deltaParts parts => .eventDelta parts
        | .completedEv => .eventCompleted
        | .noOp => .eventOther) := by
  unfold heldOf at h1 ⊢
  unfold classifyLineC
  split
  · exfalso
    rename_i hemp
    rw [List.isEmpty_iff] at hemp
    rw [hemp] at h1
    have hn : jsonParseC (stripTag ([] : List Char)) = none := rfl
    rw [hn] at h1
    cases h1
  · split
    · exfalso
      rename_i hdone
      rw [hdone] at h1
      have hn : jsonParseC doneChars = none := rfl
      rw [hn] at h1
      cases h1
    · rw [h1]

/-- C10 amended: for every line that parses as JSON, (i) unless the parsed
value is a content delta with truthy content, the message log is unchanged;
(ii) if the event handling throws inside the `try` (field access on a parsed
`null`, or truthy non-iterable content), the line is handled exactly like a
parse failure: state unchanged, line held in the buffer, no batch stop;
(iii) a content part lacking a text value contributes the empty string to the
accumulator (the accumulator is unchanged and the log is spliced with the
unchanged accumulated text). -/
theorem C10_amended :
    (∀ (st : ChatState) (buf l : List Char) (j : Json),
        jsonParseC (heldOf l) = some j → isDeltaTruthyB j = false →
        (processLineC st buf l).1.messages = st.messages) ∧
      (∀ (st : ChatState) (buf l : List Char) (j : Json),
        jsonParseC (heldOf l) = some j → classifyParsed j = .thrown →
        processLineC st buf l = (st, heldOf l, false)) ∧
      (∀ (st : ChatState) (part : Json),
        optChain (optChain (some part) "text") "value" = none →
        deltaStep st part =
          ⟨updateMessages st.messages st.assistantMessageRef,
            st.inputDisabled, st.assistantMessageRef⟩) := by
  refine ⟨?_, ?_, ?_⟩
  · intro st buf l j h1 h2
    unfold processLineC
    rw [classify_of_parse h1]
    cases hcp : classifyParsed j with
    | deltaParts ps => exact absurd hcp (classifyParsed_not_delta h2)
    | thrown => rfl
    | completedEv => rfl
    | noOp => rfl
  · intro st buf l j h1 h2
    unfold processLineC
    rw [classify_of_parse h1, h2]
  · intro st part h
    unfold deltaStep partText
    rw [h]
    simp [String.append_empty]

theorem C10_witness :
    (jsonParseC (heldOf "\x7b\"event\":\"thread.message.completed\"\x7d".toList) =
        some (Json.obj [("event", Json.str "thread.message.completed")]) ∧
      isDeltaTruthyB (Json.obj [("event", Json.str "thread.message.completed")]) =
        false ∧
      (processLineC ⟨[], true, ""⟩ []
          "\x7b\"event\":\"thread.message.completed\"\x7d".toList).1.messages =
        ([] : List Message)) ∧
      (jsonParseC (heldOf "null".toList) = some Json.null ∧
        classifyParsed Json.null = .thrown ∧
        processLineC ⟨[], true, ""⟩ "old".toList "null".toList =
          (⟨[], true, ""⟩, heldOf "null".toList, false)) ∧
      (optChain (optChain (some (Json.obj [])) "text") "value" = none ∧
        deltaStep ⟨[], true, "acc"⟩ (Json.obj []) =
          ⟨updateMessages [] "acc", true, "acc"⟩) :=
  ⟨⟨rfl, by decide,
      C10_amended.1 ⟨[], true, ""⟩ []
        "\x7b\"event\":\"thread.message.completed\"\x7d".toList
        (Json.obj [("event", Json.str "thread.message.completed")]) rfl
        (by decide)⟩,
    ⟨rfl, rfl,
      C10_amended.2.1 ⟨[], true, ""⟩ "old".toList "null".toList Json.null rfl
        rfl⟩,
    ⟨rfl, C10_amended.2.2 ⟨[], true, "acc"⟩ (Json.obj []) rfl⟩⟩

/-! ### C1: chunk-boundary invariance machinery.

The read loop is compared against a reference machine that consumes the
stream one character at a time (`stepChar`), processing the current line at
each `'\n'`.  The reference machine is a `List.foldl`, so it is trivially
invariant under chunking; the work is to prove that each
`processChunkC` batch agrees with it (for streams whose complete lines are
all "good": not `[DONE]`, and parsed without hitting the `catch`). -/

/-- The chat-state effect of one line (the buffer/stop components of a good
line are trivial). -/
def lineState (st : ChatState) (l : List Char) : ChatState :=
  (processLineC st [] l).1

def foldLines (st : ChatState) (ls : List (List Char)) : ChatState :=
  ls.foldl lineState st

/-- A good line neither stops the batch nor writes the buffer: it is skipped,
or it is an event the `try` handles without throwing. -/
def goodLineB (l : List Char) : Bool :=
  match classifyLineC l with
  | .done => false
  | .malformed _ => false
  | _ => true

def allGoodB (ls : List (List Char)) : Bool := ls.all goodLineB

/-- The complete lines a batch starting from buffer `s` processes. -/
def jsLines (s : List Char) : List (List Char) :=
  if endsWithNl s then rawSplit s else (rawSplit s).dropLast

/-- The carry-over left after the batch. -/
def jsRem (s : List Char) : List Char :=
  if endsWithNl s then [] else (rawSplit s).getLastD []

/-- Reference machine: chat state plus reversed current-line accumulator. -/
def stepChar (p : ChatState × List Char) (c : Char) : ChatState × List Char :=
  if c = '\n' then (lineState p.1 p.2.reverse, []) else (p.1, c :: p.2)

/-- Goodness machine: tracks whether every line ended so far was good. -/
def stepGood (p : Bool × List Char) (c : Char) : Bool × List Char :=
  if c = '\n' then (p.1 && goodLineB p.2.reverse, []) else (p.1, c :: p.2)

/-- Drop one trailing `'\r'` — the difference between a line produced by the
`/\r?\n/` split and the raw characters before the `'\n'`. -/
def stripCR (x : List Char) : List Char :=
  if x.getLast? = some '\r' then x.dropLast else x

theorem stripCR_cons {x : List Char} (c : Char) (h : x ≠ []) :
    stripCR (c :: x) = c :: stripCR x := by
  unfold stripCR
  obtain ⟨y, b, rfl⟩ := (List.eq_nil_or_concat x).resolve_left h
  rw [List.concat_eq_append]
  have hc : c :: (y ++ [b]) = (c :: y) ++ [b] := by simp
  rw [hc, List.getLast?_concat, List.getLast?_concat]
  split
  · rw [List.dropLast_concat, List.dropLast_concat]
  · rfl

theorem rawSplit_ne_nil (s : List Char) : rawSplit s ≠ [] := by
  unfold rawSplit
  split
  · simp
  · simp
  · simp
  · split <;> simp

theorem rawSplit_no_nl : ∀ {x : List Char}, '\n' ∉ x → rawSplit x = [x] := by
  intro x
  induction x with
  | nil => intro _; rfl
  | cons c x' ih =>
    intro h
    simp only [List.mem_cons, not_or] at h
    obtain ⟨h1, h2⟩ := h
    rw [rawSplit.eq_def]
    split
    · rename_i heq; cases heq
    · rename_i rest heq
      injection heq with e1 e2
      exact absurd (e2 ▸ List.mem_cons_self _ _) h2
    · rename_i rest heq
      injection heq with e1 e2
      exact absurd e1.symm h1
    · rename_i c' rest hne1 hne2 heq
      injection heq with e1 e2
      subst e1; subst e2
      rw [ih h2]

/-- Splitting `x ++ '\n' :: r` when `x` has no newline: the first line is `x`
(minus a `'\r'` consumed by the `\r\n` separator), the rest splits `r`. -/
theorem rawSplit_append_nl :
    ∀ {x : List Char}, '\n' ∉ x → ∀ (r : List Char),
      rawSplit (x ++ '\n' :: r) = stripCR x :: rawSplit r := by
  intro x
  induction x with
  | nil => intro _ r; rfl
  | cons c x' ih =>
    intro h r
    simp only [List.mem_cons, not_or] at h
    obtain ⟨h1, h2⟩ := h
    rcases hx : x' with _ | ⟨d, x''⟩
    · by_cases hcr : c = '\r'
      · subst hcr; rfl
      · rw [List.cons_append, List.nil_append, rawSplit.eq_def]
        split
        · rename_i heq; cases heq
        · rename_i rest heq
          injection heq with e1 e2
          exact absurd e1 hcr
        · rename_i rest heq
          injection heq with e1 e2
          exact absurd e1.symm h1
        · rename_i c' rest hne1 hne2 heq
          injection heq with e1 e2
          subst e1; subst e2
          rw [rawSplit.eq_def ('\n' :: r)]
          simp only
          have : stripCR [c] = [c] := by
            unfold stripCR
            simp [hcr]
          rw [this]
    · subst hx
      have hd : d ≠ '\n' := by
        intro hdn
        exact h2 (hdn ▸ List.mem_cons_self _ _)
      rw [List.cons_append, rawSplit.eq_def]
      split
      · rename_i heq; cases heq
      · rename_i rest heq
        injection heq with e1 e2
        rw [List.cons_append] at e2
        injection e2 with e3 e4
        exact absurd e3 hd
      · rename_i rest heq
        injection heq with e1 e2
        exact absurd e1.symm h1
      · rename_i c' rest hne1 hne2 heq
        injection heq with e1 e2
        subst e1; subst e2
        rw [ih h2 r]
        rw [stripCR_cons c (by simp)]

theorem trimRight_concat_cr (y : List Char) :
    trimRightC (y ++ ['\r']) = trimRightC y := by
  unfold trimRightC
  rw [List.reverse_append]
  simp only [List.reverse_cons, List.reverse_nil, List.nil_append,
    List.singleton_append]
  rw [List.dropWhile_cons, if_pos (show isJsWs '\r' = true from rfl)]

theorem jsTrim_stripCR (x : List Char) : jsTrimC (stripCR x) = jsTrimC x := by
  unfold stripCR
  split
  · rename_i hlast
    rcases List.eq_nil_or_concat x with rfl | ⟨y, b, rfl⟩
    · simp at hlast
    · rw [List.concat_eq_append] at hlast ⊢
      rw [List.getLast?_concat] at hlast
      injection hlast with e
      subst e
      rw [List.dropLast_concat]
      unfold jsTrimC
      rw [trimRight_concat_cr]
  · rfl

theorem classify_stripCR (x : List Char) :
    classifyLineC (stripCR x) = classifyLineC x := by
  unfold classifyLineC
  rw [jsTrim_stripCR]

theorem goodLineB_stripCR (x : List Char) :
    goodLineB (stripCR x) = goodLineB x := by
  unfold goodLineB
  rw [classify_stripCR]

theorem lineState_stripCR (st : ChatState) (x : List Char) :
    lineState st (stripCR x) = lineState st x := by
  unfold lineState processLineC
  rw [classify_stripCR]

theorem lineState_nil (st : ChatState) : lineState st [] = st := rfl

theorem goodLineB_nil : goodLineB [] = true := rfl

theorem not_endsWithNl_of_no_nl {x : List Char} (h : '\n' ∉ x) :
    ¬ endsWithNl x := by
  unfold endsWithNl
  intro h'
  rcases List.eq_nil_or_concat x with rfl | ⟨y, b, rfl⟩
  · simp at h'
  · rw [List.concat_eq_append, List.getLast?_concat] at h'
    injection h' with e
    subst e
    exact h (by simp)

theorem endsWithNl_append {y z : List Char} (hz : z ≠ []) :
    endsWithNl (y ++ z) ↔ endsWithNl z := by
  unfold endsWithNl
  obtain ⟨w, b, rfl⟩ := (List.eq_nil_or_concat z).resolve_left hz
  rw [List.concat_eq_append, ← List.append_assoc, List.getLast?_concat,
    List.getLast?_concat]

theorem endsWithNl_concat_nl (x : List Char) : endsWithNl (x ++ ['\n']) := by
  unfold endsWithNl
  rw [List.getLast?_concat]

theorem not_endsWithNl_nil : ¬ endsWithNl ([] : List Char) := by
  unfold endsWithNl
  simp

theorem endsWithNl_shift {x : List Char} (r : List Char) (hr : r ≠ []) :
    endsWithNl (x ++ '\n' :: r) ↔ endsWithNl r := by
  rw [show x ++ '\n' :: r = (x ++ ['\n']) ++ r by simp]
  exact endsWithNl_append hr

theorem jsRem_append_nl {x : List Char} (h : '\n' ∉ x) (r : List Char) :
    jsRem (x ++ '\n' :: r) = jsRem r := by
  unfold jsRem
  by_cases hr : r = []
  · subst hr
    rw [if_pos (endsWithNl_concat_nl x), if_neg not_endsWithNl_nil]
    rfl
  · rw [rawSplit_append_nl h r]
    by_cases he : endsWithNl r
    · rw [if_pos ((endsWithNl_shift r hr).mpr he), if_pos he]
    · rw [if_neg (fun hh => he ((endsWithNl_shift r hr).mp hh)), if_neg he]
      rw [List.getLastD_cons, List.getLastD_eq_getLast?,
        List.getLastD_eq_getLast?]
      obtain ⟨a, ha⟩ : ∃ a, (rawSplit r).getLast? = some a := by
        rcases List.eq_nil_or_concat (rawSplit r) with h' | ⟨w, b, h'⟩
        · exact absurd h' (rawSplit_ne_nil r)
        · exact ⟨b, by rw [h', List.concat_eq_append, List.getLast?_concat]⟩
      rw [ha]
      rfl

theorem foldLines_append_nl {x : List Char} (h : '\n' ∉ x) (r : List Char)
    (st : ChatState) :
    foldLines st (jsLines (x ++ '\n' :: r)) =
      foldLines (lineState st x) (jsLines r) := by
  unfold jsLines
  by_cases hr : r = []
  · subst hr
    rw [if_pos (endsWithNl_concat_nl x), if_neg not_endsWithNl_nil]
    rw [show x ++ ['\n'] = x ++ '\n' :: [] from rfl, rawSplit_append_nl h []]
    rw [show rawSplit ([] : List Char) = [[]] from rfl]
    unfold foldLines
    simp only [List.foldl_cons, List.foldl_nil, List.dropLast_single]
    rw [lineState_stripCR, lineState_nil]
  · rw [rawSplit_append_nl h r]
    by_cases he : endsWithNl r
    · rw [if_pos ((endsWithNl_shift r hr).mpr he), if_pos he]
      unfold foldLines
      rw [List.foldl_cons, lineState_stripCR]
    · rw [if_neg (fun hh => he ((endsWithNl_shift r hr).mp hh)), if_neg he]
      rw [List.dropLast_cons_of_ne_nil (rawSplit_ne_nil r)]
      unfold foldLines
      rw [List.foldl_cons, lineState_stripCR]

theorem allGoodB_append_nl {x : List Char} (h : '\n' ∉ x) (r : List Char) :
    allGoodB (jsLines (x ++ '\n' :: r)) =
      (goodLineB x && allGoodB (jsLines r)) := by
  unfold jsLines
  by_cases hr : r = []
  · subst hr
    rw [if_pos (endsWithNl_concat_nl x), if_neg not_endsWithNl_nil]
    rw [show x ++ ['\n'] = x ++ '\n' :: [] from rfl, rawSplit_append_nl h []]
    rw [show rawSplit ([] : List Char) = [[]] from rfl]
    unfold allGoodB
    simp [goodLineB_stripCR, goodLineB_nil, List.dropLast_single]
  · rw [rawSplit_append_nl h r]
    by_cases he : endsWithNl r
    · rw [if_pos ((endsWithNl_shift r hr).mpr he), if_pos he]
      unfold allGoodB
      rw [List.all_cons, goodLineB_stripCR]
    · rw [if_neg (fun hh => he ((endsWithNl_shift r hr).mp hh)), if_neg he]
      rw [List.dropLast_cons_of_ne_nil (rawSplit_ne_nil r)]
      unfold allGoodB
      rw [List.all_cons, goodLineB_stripCR]

theorem goodFold_spec :
    ∀ (s : List Char) (b : Bool) (cur : List Char), '\n' ∉ cur →
      List.foldl stepGood (b, cur) s =
        (b && allGoodB (jsLines (cur.reverse ++ s)),
          (jsRem (cur.reverse ++ s)).reverse) := by
  intro s
  induction s with
  | nil =>
    intro b cur h
    rw [List.foldl_nil, List.append_nil]
    have hnl : '\n' ∉ cur.reverse := fun hm => h (List.mem_reverse.mp hm)
    have h1 : jsLines cur.reverse = [] := by
      unfold jsLines
      rw [if_neg (not_endsWithNl_of_no_nl hnl), rawSplit_no_nl hnl]
      rfl
    have h2 : jsRem cur.reverse = cur.reverse := by
      unfold jsRem
      rw [if_neg (not_endsWithNl_of_no_nl hnl), rawSplit_no_nl hnl]
      rfl
    rw [h1, h2, List.reverse_reverse]
    rw [show allGoodB [] = true from rfl, Bool.and_true]
  | cons c s' ih =>
    intro b cur h
    rw [List.foldl_cons]
    by_cases hc : c = '\n'
    · subst hc
      have hnl : '\n' ∉ cur.reverse := fun hm => h (List.mem_reverse.mp hm)
      rw [show stepGood (b, cur) '\n' = (b && goodLineB cur.reverse, []) from
        by unfold stepGood; rw [if_pos rfl]]
      rw [ih (b && goodLineB cur.reverse) [] (by simp)]
      rw [allGoodB_append_nl hnl s', jsRem_append_nl hnl s']
      simp only [List.reverse_nil, List.nil_append]
      rw [Bool.and_assoc]
    · rw [show stepGood (b, cur) c = (b, c :: cur) from
        by unfold stepGood; rw [if_neg hc]]
      have h' : '\n' ∉ c :: cur := by
        simp only [List.mem_cons, not_or]
        exact ⟨fun e => hc e.symm, h⟩
      rw [ih b (c :: cur) h']
      rw [List.reverse_cons, List.append_assoc, List.singleton_append]

theorem foldChar_spec :
    ∀ (s : List Char) (st : ChatState) (cur : List Char), '\n' ∉ cur →
      allGoodB (jsLines (cur.reverse ++ s)) = true →
      List.foldl stepChar (st, cur) s =
        (foldLines st (jsLines (cur.reverse ++ s)),
          (jsRem (cur.reverse ++ s)).reverse) := by
  intro s
  induction s with
  | nil =>
    intro st cur h _
    rw [List.foldl_nil, List.append_nil]
    have hnl : '\n' ∉ cur.reverse := fun hm => h (List.mem_reverse.mp hm)
    have h1 : jsLines cur.reverse = [] := by
      unfold jsLines
      rw [if_neg (not_endsWithNl_of_no_nl hnl), rawSplit_no_nl hnl]
      rfl
    have h2 : jsRem cur.reverse = cur.reverse := by
      unfold jsRem
      rw [if_neg (not_endsWithNl_of_no_nl hnl), rawSplit_no_nl hnl]
      rfl
    rw [h1, h2, List.reverse_reverse]
    rfl
  | cons c s' ih =>
    intro st cur h hg
    rw [List.foldl_cons]
    by_cases hc : c = '\n'
    · subst hc
      have hnl : '\n' ∉ cur.reverse := fun hm => h (List.mem_reverse.mp hm)
      rw [show stepChar (st, cur) '\n' = (lineState st cur.reverse, []) from
        by unfold stepChar; rw [if_pos rfl]]
      have hg' : allGoodB (jsLines s') = true := by
        rw [allGoodB_append_nl hnl s', Bool.and_eq_true] at hg
        exact hg.2
      rw [ih (lineState st cur.reverse) [] (by simp) (by simpa using hg')]
      simp only [List.reverse_nil, List.nil_append]
      rw [foldLines_append_nl hnl s' st, jsRem_append_nl hnl s']
    · rw [show stepChar (st, cur) c = (st, c :: cur) from
        by unfold stepChar; rw [if_neg hc]]
      have h' : '\n' ∉ c :: cur := by
        simp only [List.mem_cons, not_or]
        exact ⟨fun e => hc e.symm, h⟩
      have hg' : allGoodB (jsLines ((c :: cur).reverse ++ s')) = true := by
        rw [List.reverse_cons, List.append_assoc, List.singleton_append]
        exact hg
      rw [ih st (c :: cur) h' hg']
      rw [List.reverse_cons, List.append_assoc, List.singleton_append]

theorem stepGood_snd_no_nl :
    ∀ (s : List Char) (b : Bool) (cur : List Char), '\n' ∉ cur →
      '\n' ∉ (List.foldl stepGood (b, cur) s).2 := by
  intro s
  induction s with
  | nil => intro b cur h; exact h
  | cons c s' ih =>
    intro b cur h
    rw [List.foldl_cons]
    by_cases hc : c = '\n'
    · subst hc
      rw [show stepGood (b, cur) '\n' = (b && goodLineB cur.reverse, []) from
        by unfold stepGood; rw [if_pos rfl]]
      exact ih _ [] (by simp)
    · rw [show stepGood (b, cur) c = (b, c :: cur) from
        by unfold stepGood; rw [if_neg hc]]
      refine ih _ _ ?_
      simp only [List.mem_cons, not_or]
      exact ⟨fun e => hc e.symm, h⟩

theorem jsRem_no_nl (s : List Char) : '\n' ∉ jsRem s := by
  have h1 := goodFold_spec s true [] (by simp)
  have h2 := stepGood_snd_no_nl s true [] (by simp)
  rw [h1] at h2
  simp only [List.reverse_nil, List.nil_append, List.mem_reverse] at h2
  exact h2

theorem processLineC_good {l : List Char} (hg : goodLineB l = true)
    (st : ChatState) (buf : List Char) :
    processLineC st buf l = (lineState st l, buf, false) := by
  unfold goodLineB at hg
  unfold lineState
  unfold processLineC
  cases hc : classifyLineC l <;> simp_all

theorem processLinesC_good :
    ∀ (ls : List (List Char)) (st : ChatState) (buf : List Char),
      allGoodB ls = true →
      processLinesC st buf ls = (foldLines st ls, buf) := by
  intro ls
  induction ls with
  | nil => intro st buf _; rfl
  | cons l ls' ih =>
    intro st buf hg
    unfold allGoodB at hg
    rw [List.all_cons, Bool.and_eq_true] at hg
    unfold processLinesC
    rw [processLineC_good hg.1]
    show processLinesC (lineState st l) buf ls' = _
    rw [ih _ _ hg.2]
    rfl

theorem processChunk_spec (st : ChatState) {buf chunk : List Char}
    (hnl : '\n' ∉ buf) (hg : allGoodB (jsLines (buf ++ chunk)) = true) :
    processChunkC st buf chunk =
      (foldLines st (jsLines (buf ++ chunk)), jsRem (buf ++ chunk)) := by
  unfold jsLines at hg
  unfold processChunkC jsLines jsRem
  by_cases he : endsWithNl (buf ++ chunk)
  · rw [if_pos he] at hg
    rw [if_pos he, if_pos he, if_pos he]
    exact processLinesC_good _ st [] hg
  · rw [if_neg he] at hg
    rw [if_neg he, if_neg he, if_neg he]
    exact processLinesC_good _ st _ hg

theorem runChunks_spec :
    ∀ (chunks : List (List Char)) (P : List Char) (st : ChatState),
      allGoodB (jsLines (P ++ chunks.flatten)) = true →
      List.foldl (fun p c => processChunkC p.1 p.2 c)
          (foldLines st (jsLines P), jsRem P) chunks =
        (foldLines st (jsLines (P ++ chunks.flatten)),
          jsRem (P ++ chunks.flatten)) := by
  intro chunks
  induction chunks with
  | nil =>
    intro P st h
    rw [List.foldl_nil, List.flatten_nil, List.append_nil]
  | cons c rest ih =>
    intro P st h
    have hassoc : P ++ (c :: rest).flatten = (P ++ c) ++ rest.flatten := by
      rw [List.flatten_cons, ← List.append_assoc]
    rw [hassoc] at h
    have gP := goodFold_spec P true [] (by simp)
    simp only [List.reverse_nil, List.nil_append, Bool.true_and] at gP
    have gPc := goodFold_spec (P ++ c) true [] (by simp)
    simp only [List.reverse_nil, List.nil_append, Bool.true_and] at gPc
    have gc := goodFold_spec c (allGoodB (jsLines P)) ((jsRem P).reverse)
      (fun hm => jsRem_no_nl P (List.mem_reverse.mp hm))
    rw [List.reverse_reverse] at gc
    have key1 : allGoodB (jsLines (P ++ c)) =
        (allGoodB (jsLines P) && allGoodB (jsLines (jsRem P ++ c))) := by
      have hthis := List.foldl_append stepGood (true, ([] : List Char)) P c
      rw [gP, gc, gPc] at hthis
      exact (Prod.ext_iff.mp hthis).1
    have grest := goodFold_spec rest.flatten (allGoodB (jsLines (P ++ c)))
      ((jsRem (P ++ c)).reverse)
      (fun hm => jsRem_no_nl (P ++ c) (List.mem_reverse.mp hm))
    rw [List.reverse_reverse] at grest
    have gfull := goodFold_spec ((P ++ c) ++ rest.flatten) true [] (by simp)
    simp only [List.reverse_nil, List.nil_append, Bool.true_and] at gfull
    have key2 : allGoodB (jsLines ((P ++ c) ++ rest.flatten)) =
        (allGoodB (jsLines (P ++ c)) &&
          allGoodB (jsLines (jsRem (P ++ c) ++ rest.flatten))) := by
      have hthis := List.foldl_append stepGood (true, ([] : List Char))
        (P ++ c) rest.flatten
      rw [gfull, gPc, grest] at hthis
      exact (Prod.ext_iff.mp hthis).1
    have hPc : allGoodB (jsLines (P ++ c)) = true := by
      rw [key2, Bool.and_eq_true] at h
      exact h.1
    have hP : allGoodB (jsLines P) = true := by
      have hthis := hPc
      rw [key1, Bool.and_eq_true] at hthis
      exact hthis.1
    have hbatch : allGoodB (jsLines (jsRem P ++ c)) = true := by
      have hthis := hPc
      rw [key1, Bool.and_eq_true] at hthis
      exact hthis.2
    have sX := foldChar_spec (P ++ c) st [] (by simp) (by simpa using hPc)
    simp only [List.reverse_nil, List.nil_append] at sX
    have sP := foldChar_spec P st [] (by simp) (by simpa using hP)
    simp only [List.reverse_nil, List.nil_append] at sP
    have sc := foldChar_spec c (foldLines st (jsLines P)) ((jsRem P).reverse)
      (fun hm => jsRem_no_nl P (List.mem_reverse.mp hm))
      (by rw [List.reverse_reverse]; exact hbatch)
    rw [List.reverse_reverse] at sc
    have hpair : (foldLines st (jsLines (P ++ c)), (jsRem (P ++ c)).reverse) =
        (foldLines (foldLines st (jsLines P)) (jsLines (jsRem P ++ c)),
          (jsRem (jsRem P ++ c)).reverse) := by
      have hthis := List.foldl_append stepChar (st, ([] : List Char)) P c
      rw [sP, sc, sX] at hthis
      exact hthis
    have hm1 : foldLines st (jsLines (P ++ c)) =
        foldLines (foldLines st (jsLines P)) (jsLines (jsRem P ++ c)) :=
      (Prod.ext_iff.mp hpair).1
    have hm2 : jsRem (P ++ c) = jsRem (jsRem P ++ c) :=
      List.reverse_inj.mp (Prod.ext_iff.mp hpair).2
    rw [List.foldl_cons]
    have hstep : processChunkC (foldLines st (jsLines P)) (jsRem P) c =
        (foldLines st (jsLines (P ++ c)), jsRem (P ++ c)) := by
      rw [processChunk_spec _ (jsRem_no_nl P) hbatch]
      rw [hm1, hm2]
    show List.foldl _ (processChunkC (foldLines st (jsLines P)) (jsRem P) c)
      rest = _
    rw [hstep, hassoc]
    exact ih (P ++ c) st h

/-- C1 amended: chunk-boundary invariance of the final message log (indeed of
the final chat state and buffer), PROVIDED every complete line of the byte
sequence — after trimming and optional tag stripping — is empty or is a JSON
event handled without the `catch`, and none is the `[DONE]` sentinel
(`allGoodB`).  Without that proviso the claim is false, see
`C1_counterexample`. -/
theorem C1_chunk_invariance (chunks : List (List Char)) (st : ChatState)
    (h : allGoodB (jsLines chunks.flatten) = true) :
    (runChunksC st chunks).1.messages =
      (runChunksC st [chunks.flatten]).1.messages := by
  have base : ((st, ([] : List Char)) : ChatState × List Char) =
      (foldLines st (jsLines []), jsRem []) := rfl
  unfold runChunksC
  have h1 : allGoodB (jsLines ([] ++ chunks.flatten)) = true := by simpa using h
  have e1 := runChunks_spec chunks [] st h1
  have h2 : allGoodB (jsLines ([] ++ [chunks.flatten].flatten)) = true := by
    simpa using h
  have e2 := runChunks_spec [chunks.flatten] [] st h2
  rw [base, e1, e2]
  simp

/-- The `[DONE]` frame, alone in a read. -/
def cexDoneChunk : String := "data: [DONE]\n"

/-- A content-delta frame carrying `"Hi"`. -/
def cexDeltaChunk : String :=
  "\x7b\"event\":\"thread.message.delta\",\"data\":\x7b\"delta\":\x7b\"content\":[\x7b\"text\":\x7b\"value\":\"Hi\"\x7d\x7d]\x7d\x7d\x7d\n"

/-- C1 counterexample: the same byte sequence — a `[DONE]` frame followed by a
content-delta frame — delivered in ONE read leaves the log at just the user
message (the `break` at the sentinel skips the rest of the batch), but split
at the frame boundary into TWO reads appends the assistant message (the
second batch is processed even though input was already re-enabled).  So the
claim, quantified over every byte sequence, is false on the code. -/
theorem C1_counterexample :
    (sendMessage ⟨"", [], false, some "t", ""⟩ "hi" true
        (.chunks [cexDoneChunk ++ cexDeltaChunk])).1.messages ≠
      (sendMessage ⟨"", [], false, some "t", ""⟩ "hi" true
        (.chunks [cexDoneChunk, cexDeltaChunk])).1.messages := by
  decide

/-- First witness read: a completed-event frame cut mid-line. -/
def c1wA : List Char := "\x7b\"event\":\"thr".toList

/-- Second witness read: the rest of the frame, plus an unterminated tail. -/
def c1wB : List Char := "ead.message.completed\"\x7d\ntail".toList

theorem C1_witness :
    allGoodB (jsLines ([c1wA, c1wB] : List (List Char)).flatten) = true ∧
      (runChunksC ⟨[], true, ""⟩ [c1wA, c1wB]).1.messages =
        (runChunksC ⟨[], true, ""⟩ [([c1wA, c1wB] :
          List (List Char)).flatten]).1.messages :=
  ⟨by decide, C1_chunk_invariance [c1wA, c1wB] ⟨[], true, ""⟩ (by decide)⟩
